import Mathlib

/-!
Shallow embedding of `src/main.rs` of the rock-paper-scissors commit-reveal
game.  The commitment primitive is the BLAKE3 hash (the `blake3` crate's
`Hasher::update`/`finalize`), modelled word-for-word from the published
BLAKE3 specification; bytes and 32-bit words are `Nat` with explicit
`% 2^32` reductions.  `commit_faster`, `reveal_faster`, the `Choice` enum
(with its derived `PartialOrd` declaration order) and `update_scores` are
translated directly from the Rust source.
-/

/-- The eight BLAKE3 initialisation words (shared with SHA-256). -/
def iv : List Nat :=
  [0x6A09E667, 0xBB67AE85, 0x3C6EF372, 0xA54FF53A,
   0x510E527F, 0x9B05688C, 0x1F83D9AB, 0x5BE0CD19]

/-- The BLAKE3 message-word permutation applied between rounds. -/
def msgPerm : List Nat := [2, 6, 3, 10, 7, 0, 4, 13, 1, 11, 12, 5, 9, 14, 15, 8]

/-- 32-bit wrapping addition. -/
def add32 (a b : Nat) : Nat := (a + b) % 4294967296

/-- 32-bit right rotation of a word `x < 2^32`. -/
def rotr32 (x n : Nat) : Nat := ((x >>> n) ||| (x <<< (32 - n))) % 4294967296

/-- The BLAKE3 quarter-round `g` acting on state positions `a b c d`
with message words `mx my`.  The 16-word state is a list of `Nat`. -/
def gFn (st : List Nat) (a b c d mx my : Nat) : List Nat :=
  let a1 := add32 (add32 (st.getD a 0) (st.getD b 0)) mx
  let d1 := rotr32 ((st.getD d 0) ^^^ a1) 16
  let c1 := add32 (st.getD c 0) d1
  let b1 := rotr32 ((st.getD b 0) ^^^ c1) 12
  let a2 := add32 (add32 a1 b1) my
  let d2 := rotr32 (d1 ^^^ a2) 8
  let c2 := add32 c1 d2
  let b2 := rotr32 (b1 ^^^ c2) 7
  ((((st.set a a2).set b b2).set c c2).set d d2)

/-- One BLAKE3 round: four column quarter-rounds then four diagonals. -/
def roundFn (st m : List Nat) : List Nat :=
  let s1 := gFn st 0 4 8 12 (m.getD 0 0) (m.getD 1 0)
  let s2 := gFn s1 1 5 9 13 (m.getD 2 0) (m.getD 3 0)
  let s3 := gFn s2 2 6 10 14 (m.getD 4 0) (m.getD 5 0)
  let s4 := gFn s3 3 7 11 15 (m.getD 6 0) (m.getD 7 0)
  let s5 := gFn s4 0 5 10 15 (m.getD 8 0) (m.getD 9 0)
  let s6 := gFn s5 1 6 11 12 (m.getD 10 0) (m.getD 11 0)
  let s7 := gFn s6 2 7 8 13 (m.getD 12 0) (m.getD 13 0)
  gFn s7 3 4 9 14 (m.getD 14 0) (m.getD 15 0)

/-- Apply the message permutation to the 16 message words. -/
def permuteWords (m : List Nat) : List Nat := msgPerm.map (fun i => m.getD i 0)

/-- The BLAKE3 compression function: 8-word chaining value `cv`, 16 message
words `m`, 64-bit counter, block length and flag word; returns the 16
output words. -/
def compress (cv m : List Nat) (counter blockLen flags : Nat) : List Nat :=
  let st0 := cv.take 8 ++ iv.take 4 ++
    [counter % 4294967296, counter / 4294967296 % 4294967296, blockLen, flags]
  let s1 := roundFn st0 m
  let m1 := permuteWords m
  let s2 := roundFn s1 m1
  let m2 := permuteWords m1
  let s3 := roundFn s2 m2
  let m3 := permuteWords m2
  let s4 := roundFn s3 m3
  let m4 := permuteWords m3
  let s5 := roundFn s4 m4
  let m5 := permuteWords m4
  let s6 := roundFn s5 m5
  let m6 := permuteWords m5
  let s7 := roundFn s6 m6
  (List.range 8).map (fun i => (s7.getD i 0) ^^^ (s7.getD (i + 8) 0)) ++
    (List.range 8).map (fun i => (s7.getD (i + 8) 0) ^^^ (cv.getD i 0))

/-- Little-endian packing of bytes into 32-bit words, four at a time;
a ragged tail is zero-padded. -/
def wordsOfBytes : List Nat → List Nat
  | b0 :: b1 :: b2 :: b3 :: rest =>
      (b0 + b1 * 256 + b2 * 65536 + b3 * 16777216) :: wordsOfBytes rest
  | [] => []
  | bs => [bs.getD 0 0 + bs.getD 1 0 * 256 + bs.getD 2 0 * 65536 + bs.getD 3 0 * 16777216]

/-- Little-endian serialisation of 32-bit words into bytes. -/
def bytesOfWords (ws : List Nat) : List Nat :=
  ws.flatMap (fun w => [w % 256, w / 256 % 256, w / 65536 % 256, w / 16777216 % 256])

/-- Zero-pad a byte list on the right to length `n`. -/
def padTo (n : Nat) (bs : List Nat) : List Nat := bs ++ List.replicate (n - bs.length) 0

/-- Compress the 64-byte blocks of one chunk in sequence, chaining the
first 8 output words.  `first` marks the CHUNK_START block, the final
block gets CHUNK_END, and additionally ROOT when `isRoot`.  `fuel`
bounds the recursion (any `fuel > bs.length / 64` is exact). -/
def chunkRounds (fuel : Nat) (cv bs : List Nat) (counter : Nat) (first isRoot : Bool) :
    List Nat :=
  match fuel with
  | 0 => cv
  | fuel + 1 =>
    let startFlag := if first then 1 else 0
    if bs.length ≤ 64 then
      let flags := startFlag + 2 + (if isRoot then 8 else 0)
      compress cv (wordsOfBytes (padTo 64 bs)) counter bs.length flags
    else
      let cv2 := (compress cv (wordsOfBytes (bs.take 64)) counter 64 startFlag).take 8
      chunkRounds fuel cv2 (bs.drop 64) counter false isRoot

/-- Chaining value of a non-root chunk with the given chunk counter. -/
def chunkCv (bs : List Nat) (counter : Nat) : List Nat :=
  (chunkRounds (bs.length + 1) iv bs counter true false).take 8

/-- Split a byte string into 1024-byte chunks (a short or empty input is
a single chunk).  `fuel` bounds the recursion (`bs.length + 1` is exact). -/
def toChunks (fuel : Nat) (bs : List Nat) : List (List Nat) :=
  match fuel with
  | 0 => [bs]
  | fuel + 1 =>
    if bs.length ≤ 1024 then [bs]
    else bs.take 1024 :: toChunks fuel (bs.drop 1024)

/-- Largest power of two strictly below `n` (for `n ≥ 2`), the BLAKE3
left-subtree width; `fuel ≥ n` makes the bound exact. -/
def lp2 (fuel n acc : Nat) : Nat :=
  match fuel with
  | 0 => acc
  | fuel + 1 => if acc * 2 < n then lp2 fuel n (acc * 2) else acc

/-- Chaining value of a subtree of chunk chaining values: the left child
takes the largest power of two of the leaves, parents are compressed
with the PARENT flag (4). -/
def subtreeCv (fuel : Nat) (cvs : List (List Nat)) : List Nat :=
  match fuel with
  | 0 => cvs.headD []
  | fuel + 1 =>
    match cvs with
    | [] => []
    | [cv] => cv
    | _ =>
      let k := lp2 cvs.length cvs.length 1
      (compress iv (subtreeCv fuel (cvs.take k) ++ subtreeCv fuel (cvs.drop k))
        0 64 4).take 8

/-- The 32-byte BLAKE3 hash of a byte string: one chunk is compressed
directly with the ROOT flag; otherwise the chunk chaining values are
combined in the left-heavy binary tree and the root parent carries
PARENT and ROOT (12). -/
def blake3Hash (input : List Nat) : List Nat :=
  let chunks := toChunks (input.length + 1) input
  match chunks with
  | [c] => bytesOfWords ((chunkRounds (c.length + 1) iv c 0 true true).take 8)
  | _ =>
    let cvs := (List.range chunks.length).map (fun i => chunkCv (chunks.getD i []) i)
    let k := lp2 cvs.length cvs.length 1
    bytesOfWords ((compress iv
      (subtreeCv cvs.length (cvs.take k) ++ subtreeCv cvs.length (cvs.drop k))
      0 64 12).take 8)

/-- UTF-8 encoding of one character, the byte view `str::as_bytes` exposes. -/
def utf8Bytes (c : Char) : List Nat :=
  let n := c.toNat
  if n < 128 then [n]
  else if n < 2048 then [192 + n / 64, 128 + n % 64]
  else if n < 65536 then [224 + n / 4096, 128 + n / 64 % 64, 128 + n % 64]
  else [240 + n / 262144, 128 + n / 4096 % 64, 128 + n / 64 % 64, 128 + n % 64]

/-- The bytes of a Rust `&str` (UTF-8). -/
def strBytes (s : String) : List Nat := s.data.flatMap utf8Bytes

/-- `commit_faster` from `src/main.rs`: a fresh BLAKE3 hasher is updated
with the choice bytes then the salt bytes and finalised; this equals the
hash of the concatenation. -/
def commit_faster (choice salt : String) : List Nat :=
  blake3Hash (strBytes choice ++ strBytes salt)

/-- `reveal_faster` from `src/main.rs`: recompute the commitment from the
claimed choice and salt and compare byte-for-byte with the stored hash. -/
def reveal_faster (commit_hash : List Nat) (choice salt : String) : Bool :=
  commit_faster choice salt == commit_hash

/-- The `Choice` enum of `src/main.rs`.  `derive(PartialEq, PartialOrd)` on a
fieldless enum compares variants by declaration order:
Rock < Paper < Scissors < Empty. -/
inductive Choice where
  | Rock
  | Paper
  | Scissors
  | Empty
deriving DecidableEq, Inhabited, Repr

/-- The discriminant underlying the derived `PartialOrd` on `Choice`. -/
def Choice.disc : Choice → Nat
  | .Rock => 0
  | .Paper => 1
  | .Scissors => 2
  | .Empty => 3

/-- One element of `players_details`: `(String, Blake3Hash, Choice)`. -/
abbrev PlayerEntry := String × List Nat × Choice

/-- The `players_scores` table, `HashMap<String, u32>`: `none` for a
missing key, `some v` with `v < 2^32` for a stored score. -/
abbrev Scores := String → Option Nat

/-- The score table with no entries. -/
def emptyScores : Scores := fun _ => none

/-- `*players_scores.entry(name.clone()).or_insert(0) += 1`: a missing key
enters at 0, then the `u32` score is incremented (wrapping at `2^32`). -/
def bump (t : Scores) (name : String) : Scores :=
  fun n => if n = name then some (((t name).getD 0 + 1) % 4294967296) else t n

/-- The body of the double loop of `update_scores` for the ordered pair
`(a, b) = (players_details[i], players_details[j])`, `i < j`:
the derived `<` compares discriminants, with a special case awarding
Rock over Scissors; otherwise the larger discriminant wins. -/
def scoreOne (t : Scores) (a b : PlayerEntry) : Scores :=
  if a.2.2.disc < b.2.2.disc then
    if a.2.2 = Choice.Rock ∧ b.2.2 = Choice.Scissors then bump t a.1
    else bump t b.1
  else if b.2.2.disc < a.2.2.disc then
    bump t a.1
  else t

/-- The inner `j` loop of `update_scores`: pair `a = players_details[i]`
with every later entry, left to right. -/
def scoreAgainst (t : Scores) (a : PlayerEntry) (rest : List PlayerEntry) : Scores :=
  rest.foldl (fun u b => scoreOne u a b) t

/-- `update_scores` from `src/main.rs`: for every `i` and every `j > i`
the pair `(players_details[i], players_details[j])` is compared once, in
loop order, mutating `players_scores`. -/
def update_scores (players_details : List PlayerEntry) (players_scores : Scores) :
    Scores :=
  match players_details with
  | [] => players_scores
  | a :: rest => update_scores rest (scoreAgainst players_scores a rest)

/-- The name `scoreOne` credits with the point for the ordered pair
`(a, b)`, `none` when the choices tie. -/
def pairWinner (a b : PlayerEntry) : Option String :=
  if a.2.2.disc < b.2.2.disc then
    if a.2.2 = Choice.Rock ∧ b.2.2 = Choice.Scissors then some a.1 else some b.1
  else if b.2.2.disc < a.2.2.disc then some a.1
  else none

/-- Number of compared pairs `(i, j)`, `i < j`, whose point goes to the
name `n` in one `update_scores` pass over `ps`. -/
def winsIn (ps : List PlayerEntry) (n : String) : Nat :=
  match ps with
  | [] => 0
  | a :: rest => rest.countP (fun b => pairWinner a b == some n) + winsIn rest n

/-- An arbitrary fixed 32-byte digest used in concrete score examples
(`update_scores` never reads the hash component). -/
def zeroHash : List Nat := List.replicate 32 0

lemma bump_apply (t : Scores) (w n : String) :
    bump t w n = if n = w then some (((t w).getD 0 + 1) % 4294967296) else t n := rfl

lemma scoreOne_eq (t : Scores) (a b : PlayerEntry) :
    scoreOne t a b = match pairWinner a b with
      | some w => bump t w
      | none => t := by
  rcases a with ⟨na, ha, ca⟩
  rcases b with ⟨nb, hb, cb⟩
  cases ca <;> cases cb <;> simp [scoreOne, pairWinner, Choice.disc]

lemma pairWinner_mem (a b : PlayerEntry) (w : String) (h : pairWinner a b = some w) :
    w = a.1 ∨ w = b.1 := by
  rcases a with ⟨na, ha, ca⟩
  rcases b with ⟨nb, hb, cb⟩
  cases ca <;> cases cb <;> simp [pairWinner, Choice.disc] at h <;> simp [h]

lemma pairWinner_none_of_eq (a b : PlayerEntry) (h : a.2.2 = b.2.2) :
    pairWinner a b = none := by
  unfold pairWinner
  simp [h]

lemma scoreAgainst_apply (a : PlayerEntry) (rest : List PlayerEntry) (t : Scores)
    (n : String) :
    scoreAgainst t a rest n =
      if rest.countP (fun b => pairWinner a b == some n) = 0 then t n
      else some (((t n).getD 0 +
        rest.countP (fun b => pairWinner a b == some n)) % 4294967296) := by
  induction rest generalizing t with
  | nil => simp [scoreAgainst]
  | cons b rs ih =>
    have hstep : scoreAgainst t a (b :: rs) = scoreAgainst (scoreOne t a b) a rs := rfl
    have hcnt : (b :: rs).countP (fun x => pairWinner a x == some n) =
        rs.countP (fun x => pairWinner a x == some n) +
          (if pairWinner a b = some n then 1 else 0) := by
      rw [List.countP_cons]
      by_cases hb : pairWinner a b = some n <;> simp [hb]
    rw [hstep, ih, hcnt]
    by_cases hb : pairWinner a b = some n
    · have hsc : scoreOne t a b = bump t n := by rw [scoreOne_eq, hb]
      have hone : (if pairWinner a b = some n then 1 else 0) = 1 := if_pos hb
      have hbn : bump t n n = some (((t n).getD 0 + 1) % 4294967296) := by
        simp [bump_apply]
      rw [hone, hsc, hbn,
        if_neg (by omega : ¬(rs.countP (fun x => pairWinner a x == some n) + 1 = 0))]
      by_cases hc : rs.countP (fun x => pairWinner a x == some n) = 0
      · rw [if_pos hc, hc]
      · rw [if_neg hc]
        simp only [Option.getD_some, Nat.mod_add_mod, Option.some.injEq]
        omega
    · have hzero : (if pairWinner a b = some n then 1 else 0) = 0 := if_neg hb
      rw [hzero, Nat.add_zero]
      rcases hw : pairWinner a b with _ | w
      · have hsc : scoreOne t a b = t := by rw [scoreOne_eq, hw]
        rw [hsc]
      · have hsc : scoreOne t a b = bump t w := by rw [scoreOne_eq, hw]
        have hnw : n ≠ w := by
          rintro rfl
          exact hb hw
        have hbn : bump t w n = t n := by simp [bump_apply, hnw]
        rw [hsc, hbn]

lemma winsIn_eq_zero (ps : List PlayerEntry) (n : String)
    (h : n ∉ ps.map Prod.fst) : winsIn ps n = 0 := by
  induction ps with
  | nil => rfl
  | cons a rest ih =>
    simp only [List.map_cons, List.mem_cons, not_or] at h
    obtain ⟨ha, hrest⟩ := h
    have hcnt : rest.countP (fun b => pairWinner a b == some n) = 0 := by
      rw [List.countP_eq_zero]
      intro b hb
      simp only [beq_iff_eq]
      intro hpw
      rcases pairWinner_mem a b n hpw with h1 | h1
      · exact ha h1
      · exact hrest (h1 ▸ List.mem_map_of_mem Prod.fst hb)
    have hr : winsIn rest n = 0 := ih hrest
    show rest.countP (fun b => pairWinner a b == some n) + winsIn rest n = 0
    rw [hcnt, hr]

lemma winsIn_all_tie (ps : List PlayerEntry) (c : Choice)
    (hall : ∀ p ∈ ps, p.2.2 = c) (n : String) : winsIn ps n = 0 := by
  induction ps with
  | nil => rfl
  | cons a rest ih =>
    have hcnt : rest.countP (fun b => pairWinner a b == some n) = 0 := by
      rw [List.countP_eq_zero]
      intro b hb
      have hnone : pairWinner a b = none :=
        pairWinner_none_of_eq a b
          ((hall a (List.mem_cons_self a rest)).trans
            (hall b (List.mem_cons_of_mem a hb)).symm)
      simp [hnone]
    have hr : winsIn rest n = 0 := ih (fun p hp => hall p (List.mem_cons_of_mem a hp))
    show rest.countP (fun b => pairWinner a b == some n) + winsIn rest n = 0
    rw [hcnt, hr]

lemma winsIn_le (ps : List PlayerEntry) (n : String)
    (hnd : (ps.map Prod.fst).Nodup) : winsIn ps n ≤ ps.length - 1 := by
  induction ps with
  | nil => simp [winsIn]
  | cons a rest ih =>
    simp only [List.map_cons, List.nodup_cons] at hnd
    obtain ⟨hna, hrest⟩ := hnd
    have hwc : winsIn (a :: rest) n =
        rest.countP (fun b => pairWinner a b == some n) + winsIn rest n := rfl
    have hlen : rest.countP (fun b => pairWinner a b == some n) ≤ rest.length :=
      List.countP_le_length _
    by_cases hn : n = a.1
    · have h0 : winsIn rest n = 0 := winsIn_eq_zero rest n (by rw [hn]; exact hna)
      simp only [hwc, h0, List.length_cons]
      omega
    · have hmono : rest.countP (fun b => pairWinner a b == some n) ≤
          rest.countP (fun b => b.1 == n) := by
        apply List.countP_mono_left
        intro b hb hpw
        simp only [beq_iff_eq] at hpw ⊢
        rcases pairWinner_mem a b n hpw with h1 | h1
        · exact absurd h1 hn
        · exact h1.symm
      have hceq : (rest.map Prod.fst).count n = rest.countP (fun b => b.1 == n) := by
        simp only [List.count, List.countP_map]
        rfl
      have hcount : rest.countP (fun b => b.1 == n) ≤ 1 := by
        rw [← hceq]
        exact List.nodup_iff_count_le_one.mp hrest n
      have hr := ih hrest
      simp only [hwc, List.length_cons]
      omega

lemma update_scores_apply (ps : List PlayerEntry) (t : Scores) (n : String) :
    update_scores ps t n =
      if winsIn ps n = 0 then t n
      else some (((t n).getD 0 + winsIn ps n) % 4294967296) := by
  induction ps generalizing t with
  | nil => simp [update_scores, winsIn]
  | cons a rest ih =>
    have hstep : update_scores (a :: rest) t = update_scores rest (scoreAgainst t a rest) :=
      rfl
    have hw : winsIn (a :: rest) n =
        rest.countP (fun b => pairWinner a b == some n) + winsIn rest n := rfl
    rw [hstep, ih, hw, scoreAgainst_apply]
    by_cases hr : winsIn rest n = 0
    · rw [if_pos hr, hr, Nat.add_zero]
    · rw [if_neg hr]
      by_cases hc : rest.countP (fun b => pairWinner a b == some n) = 0
      · rw [if_pos hc, hc, Nat.zero_add, if_neg hr]
      · rw [if_neg hc,
          if_neg (by omega :
            ¬(rest.countP (fun b => pairWinner a b == some n) + winsIn rest n = 0))]
        simp only [Option.getD_some, Nat.mod_add_mod, Option.some.injEq]
        omega

/-- Claim C1 (failing-input evaluation): with choices Scissors, Rock in
that list order, `update_scores` awards the point to the Scissors player
and nothing to the Rock player, against the cyclic rule Rock beats
Scissors stated in the function's own documentation; the award depends
on the positions of the two players. -/
theorem update_scores_scissors_first_beats_rock :
    ((update_scores [("A", zeroHash, Choice.Scissors), ("B", zeroHash, Choice.Rock)]
        emptyScores) "A").getD 0 = 1 ∧
    ((update_scores [("A", zeroHash, Choice.Scissors), ("B", zeroHash, Choice.Rock)]
        emptyScores) "B").getD 0 = 0 := by decide

/-- Claim C2: `reveal_faster c choice salt` returns true exactly when
`commit_faster choice salt` equals `c` byte-for-byte, and in particular a
reveal of a genuine commitment always succeeds. -/
theorem reveal_iff_commit_eq (c : List Nat) (choice salt : String) :
    (reveal_faster c choice salt = true ↔ commit_faster choice salt = c) ∧
    reveal_faster (commit_faster choice salt) choice salt = true := by
  constructor
  · simp [reveal_faster]
  · simp [reveal_faster]

/-- Claim C3 (counterexample): a player holding the `Empty` sentinel paired
against a Rock player does gain a point from that pairing, so `Empty` is
not scored as a loss/no-op for the `Empty` player. -/
theorem empty_gains_point_counterexample :
    ¬ (((update_scores [("E", zeroHash, Choice.Empty), ("B", zeroHash, Choice.Rock)]
        emptyScores) "E").getD 0 = 0) := by decide

/-- Claim C3 (amended): in every pairing of an `Empty`-choice player with a
player holding a real choice, whichever of the two list orders occurs,
`update_scores` awards the +1 of that pairing to the `Empty` player
(`Empty`, the largest variant in the derived order, wins every pairing
against Rock, Paper and Scissors). -/
theorem empty_wins_pairings (t : Scores) (a b : PlayerEntry)
    (ha : a.2.2 = Choice.Empty) (hb : b.2.2 ≠ Choice.Empty) :
    scoreOne t a b = bump t a.1 ∧ scoreOne t b a = bump t a.1 := by
  rcases a with ⟨na, hha, ca⟩
  rcases b with ⟨nb, hhb, cb⟩
  simp only at ha hb
  subst ha
  cases cb <;> simp_all [scoreOne, Choice.disc]

/-- Witness for the amended claim C3 at a concrete Empty/Rock pairing. -/
theorem empty_wins_pairings_witness :
    scoreOne emptyScores ("E", zeroHash, Choice.Empty) ("B", zeroHash, Choice.Rock) =
      bump emptyScores "E" ∧
    scoreOne emptyScores ("B", zeroHash, Choice.Rock) ("E", zeroHash, Choice.Empty) =
      bump emptyScores "E" :=
  empty_wins_pairings emptyScores ("E", zeroHash, Choice.Empty)
    ("B", zeroHash, Choice.Rock) rfl (by decide)

/-- Claim C4 (failing-input evaluation): invoked on a list containing an
unresolved `Empty` choice, the scorer does not fail with any error; it
returns normally and even credits the `Empty` player with the pairing
point. -/
theorem update_scores_total_on_empty :
    ((update_scores [("E", zeroHash, Choice.Empty), ("B", zeroHash, Choice.Paper)]
        emptyScores) "E").getD 0 = 1 ∧
    ((update_scores [("E", zeroHash, Choice.Empty), ("B", zeroHash, Choice.Paper)]
        emptyScores) "B").getD 0 = 0 := by decide

/-- Claim C5: a pairing of equal choices changes neither score, and a
round in which every player holds the same choice leaves the whole score
table unchanged (every delta is 0). -/
theorem tie_pairings_unchanged (a b : PlayerEntry) (t : Scores)
    (ps : List PlayerEntry) (c : Choice) (hab : a.2.2 = b.2.2)
    (hall : ∀ p ∈ ps, p.2.2 = c) :
    scoreOne t a b = t ∧ update_scores ps t = t := by
  constructor
  · rw [scoreOne_eq, pairWinner_none_of_eq a b hab]
  · funext n
    rw [update_scores_apply]
    simp [winsIn_all_tie ps c hall n]

/-- Witness for claim C5: a concrete Rock/Rock pairing and a concrete
all-Paper round. -/
theorem tie_pairings_unchanged_witness :
    scoreOne emptyScores ("A", zeroHash, Choice.Rock) ("B", zeroHash, Choice.Rock) =
      emptyScores ∧
    update_scores [("A", zeroHash, Choice.Paper), ("B", zeroHash, Choice.Paper)]
      emptyScores = emptyScores :=
  tie_pairings_unchanged ("A", zeroHash, Choice.Rock) ("B", zeroHash, Choice.Rock)
    emptyScores [("A", zeroHash, Choice.Paper), ("B", zeroHash, Choice.Paper)]
    Choice.Paper rfl (by decide)

/-- Claim C6: for the three-player input Rock, Rock, Scissors in player
order, the scorer yields deltas +1, +1, 0 in that order. -/
theorem rock_rock_scissors_deltas :
    ((update_scores [("P1", zeroHash, Choice.Rock), ("P2", zeroHash, Choice.Rock),
        ("P3", zeroHash, Choice.Scissors)] emptyScores) "P1").getD 0 = 1 ∧
    ((update_scores [("P1", zeroHash, Choice.Rock), ("P2", zeroHash, Choice.Rock),
        ("P3", zeroHash, Choice.Scissors)] emptyScores) "P2").getD 0 = 1 ∧
    ((update_scores [("P1", zeroHash, Choice.Rock), ("P2", zeroHash, Choice.Rock),
        ("P3", zeroHash, Choice.Scissors)] emptyScores) "P3").getD 0 = 0 := by decide

/-- Claim C7: one `update_scores` call never decreases a stored score
(absent `u32` wraparound), and applying the scorer for a second round
adds both rounds' deltas (each round's delta being what that round
produces on the empty table) onto the table's prior value. -/
theorem scores_monotone_and_accumulate (ps1 ps2 : List PlayerEntry) (t : Scores)
    (n : String)
    (h : (t n).getD 0 + winsIn ps1 n + winsIn ps2 n < 4294967296) :
    (t n).getD 0 ≤ ((update_scores ps1 t) n).getD 0 ∧
    ((update_scores ps2 (update_scores ps1 t)) n).getD 0 =
      (t n).getD 0 + ((update_scores ps1 emptyScores) n).getD 0 +
        ((update_scores ps2 emptyScores) n).getD 0 := by
  have key : ∀ (u : Scores) (ps : List PlayerEntry),
      (u n).getD 0 + winsIn ps n < 4294967296 →
      ((update_scores ps u) n).getD 0 = (u n).getD 0 + winsIn ps n := by
    intro u ps hu
    rw [update_scores_apply]
    by_cases h0 : winsIn ps n = 0
    · simp [h0]
    · rw [if_neg h0]
      simp [Nat.mod_eq_of_lt hu]
  have e1 := key t ps1 (by omega)
  have e2 : ((update_scores ps2 (update_scores ps1 t)) n).getD 0 =
      ((update_scores ps1 t) n).getD 0 + winsIn ps2 n := by
    apply key
    rw [e1]
    omega
  have d1 := key emptyScores ps1 (by simp [emptyScores]; omega)
  have d2 := key emptyScores ps2 (by simp [emptyScores]; omega)
  constructor
  · rw [e1]
    omega
  · rw [e2, e1, d1, d2]
    simp [emptyScores]

/-- Witness for claim C7: two identical Rock/Scissors rounds starting
from the empty table, observed at the Rock player. -/
theorem scores_monotone_and_accumulate_witness :
    (emptyScores "A").getD 0 ≤
      ((update_scores [("A", zeroHash, Choice.Rock), ("B", zeroHash, Choice.Scissors)]
        emptyScores) "A").getD 0 ∧
    ((update_scores [("A", zeroHash, Choice.Rock), ("B", zeroHash, Choice.Scissors)]
        (update_scores [("A", zeroHash, Choice.Rock), ("B", zeroHash, Choice.Scissors)]
          emptyScores)) "A").getD 0 =
      (emptyScores "A").getD 0 +
        ((update_scores [("A", zeroHash, Choice.Rock), ("B", zeroHash, Choice.Scissors)]
          emptyScores) "A").getD 0 +
        ((update_scores [("A", zeroHash, Choice.Rock), ("B", zeroHash, Choice.Scissors)]
          emptyScores) "A").getD 0 :=
  scores_monotone_and_accumulate
    [("A", zeroHash, Choice.Rock), ("B", zeroHash, Choice.Scissors)]
    [("A", zeroHash, Choice.Rock), ("B", zeroHash, Choice.Scissors)]
    emptyScores "A" (by decide)

/-- Claim C8: `commit_faster` is deterministic and pure: repeated
evaluation on the same `(choice, salt)` yields the same digest, and the
digest depends on nothing but the byte content of the two arguments. -/
theorem commit_deterministic (choice salt choice2 salt2 : String)
    (hc : strBytes choice = strBytes choice2) (hs : strBytes salt = strBytes salt2) :
    commit_faster choice salt = commit_faster choice salt ∧
    commit_faster choice salt = commit_faster choice2 salt2 := by
  refine ⟨rfl, ?_⟩
  unfold commit_faster
  rw [hc, hs]

/-- Witness for claim C8 at the concrete pair ("rock", "abhi"). -/
theorem commit_deterministic_witness :
    commit_faster "rock" "abhi" = commit_faster "rock" "abhi" ∧
    commit_faster "rock" "abhi" = commit_faster "rock" "abhi" :=
  commit_deterministic "rock" "abhi" "rock" "abhi" rfl rfl

set_option maxRecDepth 10000 in
/-- Claim C9: `commit_faster "rock" "abhi"` equals the fixed 32-byte
reference digest e59fb98489b367c5b248195c62f176deffeb3da71fbec56d0c42fd88acbe3b2b. -/
theorem commit_rock_abhi_vector :
    commit_faster "rock" "abhi" =
      [0xe5, 0x9f, 0xb9, 0x84, 0x89, 0xb3, 0x67, 0xc5,
       0xb2, 0x48, 0x19, 0x5c, 0x62, 0xf1, 0x76, 0xde,
       0xff, 0xeb, 0x3d, 0xa7, 0x1f, 0xbe, 0xc5, 0x6d,
       0x0c, 0x42, 0xfd, 0x88, 0xac, 0xbe, 0x3b, 0x2b] := by decide

/-- Claim C10: each compared pairing either leaves the table unchanged or
bumps exactly one of the two paired names by exactly one increment, and
with pairwise-distinct player names one `update_scores` call raises a
player's stored score by at most the number of other players. -/
theorem pairwise_single_increment_and_bound (ps : List PlayerEntry) (t u : Scores)
    (n : String) (a b : PlayerEntry) (hnd : (ps.map Prod.fst).Nodup) :
    (scoreOne u a b = u ∨
      ∃ w, (w = a.1 ∨ w = b.1) ∧ scoreOne u a b = bump u w) ∧
    ((update_scores ps t) n).getD 0 ≤ (t n).getD 0 + (ps.length - 1) := by
  constructor
  · rcases hw : pairWinner a b with _ | w
    · left
      rw [scoreOne_eq, hw]
    · right
      exact ⟨w, pairWinner_mem a b w hw, by rw [scoreOne_eq, hw]⟩
  · rw [update_scores_apply]
    by_cases h0 : winsIn ps n = 0
    · simp [h0]
    · rw [if_neg h0]
      have h1 : winsIn ps n ≤ ps.length - 1 := winsIn_le ps n hnd
      have h2 : ((t n).getD 0 + winsIn ps n) % 4294967296 ≤ (t n).getD 0 + winsIn ps n :=
        Nat.mod_le _ _
      simp only [Option.getD_some]
      omega

/-- Witness for claim C10: a concrete three-player round with distinct
names and a concrete Paper/Rock pairing. -/
theorem pairwise_single_increment_and_bound_witness :
    (scoreOne emptyScores ("A", zeroHash, Choice.Paper) ("B", zeroHash, Choice.Rock) =
        emptyScores ∨
      ∃ w, (w = "A" ∨ w = "B") ∧
        scoreOne emptyScores ("A", zeroHash, Choice.Paper) ("B", zeroHash, Choice.Rock) =
          bump emptyScores w) ∧
    ((update_scores [("A", zeroHash, Choice.Rock), ("B", zeroHash, Choice.Scissors),
        ("C", zeroHash, Choice.Paper)] emptyScores) "A").getD 0 ≤
      (emptyScores "A").getD 0 +
        ([("A", zeroHash, Choice.Rock), ("B", zeroHash, Choice.Scissors),
          ("C", zeroHash, Choice.Paper)].length - 1) :=
  pairwise_single_increment_and_bound
    [("A", zeroHash, Choice.Rock), ("B", zeroHash, Choice.Scissors),
      ("C", zeroHash, Choice.Paper)]
    emptyScores emptyScores "A"
    ("A", zeroHash, Choice.Paper) ("B", zeroHash, Choice.Rock) (by decide)
